import Mathlib

/-!
Verification of the maze-chase game's navigation and pursuit subsystem.

The definitions below are shallow embeddings of the Python sources:
`src/settings.py`, `src/maze.py`, `src/ai/pathfinding.py`,
`src/ai/controller.py`, `src/entities.py` and `src/game.py`.
Machine floats that only ever hold exact small integers or halves are
modelled as `ℚ`; Python ints as `ℤ`/`ℕ`.
-/

namespace PacSpec

/-! ## Settings (src/settings.py) -/

def TILE_SIZE : ℤ := 24

def GRID_WIDTH : ℤ := 28

def GRID_HEIGHT : ℤ := 31

def SCREEN_WIDTH : ℤ := GRID_WIDTH * TILE_SIZE

def SCREEN_HEIGHT : ℤ := GRID_HEIGHT * TILE_SIZE

def POWER_MODE_DURATION : ℚ := 8

/-! ## Grid model (src/maze.py)

A maze is a 2D array of single-character markers; `'X'` is a wall,
`'.'` a pellet, `'o'` a power pellet, `' '` open floor. -/

structure Maze where
  grid : List (List Char)
deriving DecidableEq

/-- `maze.grid[y][x]` — the marker at column `x`, row `y`.  The Python code
only ever indexes with coordinates that are in range for the game's
31-row × 28-column grid; out-of-range reads default to `'X'` here, and the
well-formedness hypotheses used by the theorems keep every access in range. -/
def cellAt (m : Maze) (p : ℤ × ℤ) : Char :=
  if p.1 < 0 ∨ p.2 < 0 then 'X'
  else (m.grid.getD p.2.toNat []).getD p.1.toNat 'X'

/-- The maze rows/columns match the settings grid dimensions
(true of `MAZE_BLUEPRINT`, which is 31 rows of 28 characters). -/
def WellFormed (m : Maze) : Prop :=
  m.grid.length = 31 ∧ ∀ row ∈ m.grid, row.length = 28

instance (m : Maze) : Decidable (WellFormed m) := by
  unfold WellFormed; infer_instance

/-! ## Pathfinder (src/ai/pathfinding.py) -/

/-- A grid position `(x, y)` — column then row, as in the source. -/
abbrev GridPos := ℤ × ℤ

/-- `heuristic(current, goals)`: minimum Manhattan distance from `current`
to any goal, `0` for an empty goal set. -/
def heuristic (current : GridPos) (goals : List GridPos) : ℕ :=
  match goals.map (fun g => (current.1 - g.1).natAbs + (current.2 - g.2).natAbs) with
  | [] => 0
  | d :: ds => ds.foldl min d

/-- `neighbours(position, maze)`: the traversable 4-neighbours of a cell,
with horizontal wraparound at the grid's left/right edges and vertical
moves off-grid discarded, in the source's iteration order. -/
def neighbours (m : Maze) (p : GridPos) : List GridPos :=
  [((-1 : ℤ), (0 : ℤ)), (1, 0), (0, -1), (0, 1)].filterMap fun d =>
    let nx0 := p.1 + d.1
    let nx : ℤ := if nx0 < 0 then GRID_WIDTH - 1 else if GRID_WIDTH ≤ nx0 then 0 else nx0
    let ny := p.2 + d.2
    if ny < 0 ∨ GRID_HEIGHT ≤ ny then none
    else if cellAt m (nx, ny) = 'X' then none
    else some (nx, ny)

/-- `reconstruct_path(came_from, current)`, with an accumulator (the source
builds the reversed list and reverses it; the accumulated result is
identical) and fuel standing in for the source's unbounded `while` loop. -/
def reconstruct_path : ℕ → (GridPos → Option GridPos) → GridPos → List GridPos →
    Option (List GridPos)
  | 0, _, _, _ => none
  | fuel + 1, came_from, current, acc =>
    match came_from current with
    | none => some (current :: acc)
    | some prev => reconstruct_path fuel came_from prev (current :: acc)

/-- A heap entry `(f_score, g_score, position)`. -/
abbrev Entry := ℕ × ℕ × GridPos

/-- Strict lexicographic comparison of heap entries — the order Python uses
to compare the tuples stored in `open_heap`. -/
def entryLt (a b : Entry) : Bool :=
  decide (a.1 < b.1 ∨ (a.1 = b.1 ∧ (a.2.1 < b.2.1 ∨ (a.2.1 = b.2.1 ∧
    (a.2.2.1 < b.2.2.1 ∨ (a.2.2.1 = b.2.2.1 ∧ a.2.2.2 < b.2.2.2))))))

/-- The least entry of `e :: l` in the order `entryLt` — the entry
`heappop` returns from a heap holding these entries. -/
def heapMin (e : Entry) (l : List Entry) : Entry :=
  l.foldl (fun best x => if entryLt x best then x else best) e

/-- Remove one occurrence of an entry from the heap. -/
def eraseEntry : List Entry → Entry → List Entry
  | [], _ => []
  | x :: xs, t => if x = t then xs else x :: eraseEntry xs t

/-- One neighbour relaxation from the source's inner `for` loop: if
`tentative_g` improves on the recorded g-score, record the parent and the
score and push `(f_score, tentative_g, neighbour)`. -/
def expand (current : GridPos) (tentative_g : ℕ) (goals : List GridPos)
    (st : List Entry × (GridPos → Option GridPos) × (GridPos → Option ℕ))
    (n : GridPos) :
    List Entry × (GridPos → Option GridPos) × (GridPos → Option ℕ) :=
  let better := match st.2.2 n with
    | none => true
    | some old => decide (tentative_g < old)
  if better then
    ((tentative_g + heuristic n goals, tentative_g, n) :: st.1,
     fun q => if q = n then some current else st.2.1 q,
     fun q => if q = n then some tentative_g else st.2.2 q)
  else st

/-- The source's `while open_heap` loop, with fuel standing in for the
termination argument (theorem `astar_loop_spec` below shows the fuel used
by `astar_path` is never exhausted). -/
def astar_loop (m : Maze) (goals : List GridPos) :
    ℕ → List Entry → (GridPos → Option GridPos) → (GridPos → Option ℕ) →
    Option (List GridPos)
  | 0, _, _, _ => none
  | fuel + 1, heap, came_from, g_scores =>
    match heap with
    | [] => some []
    | e :: rest =>
      let top := heapMin e rest
      let heap1 := eraseEntry (e :: rest) top
      if top.2.2 ∈ goals then reconstruct_path 1000000 came_from top.2.2 []
      else
        let st := (neighbours m top.2.2).foldl
          (expand top.2.2 (top.2.1 + 1) goals) (heap1, came_from, g_scores)
        astar_loop m goals fuel st.1 st.2.1 st.2.2

/-- `astar_path(maze, start, goals)`: list of grid positions from `start` to
the nearest goal; `some []` models the source returning the empty list,
`none` would mean the fuel ran out (it never does, see `astar_loop_spec`). -/
def astar_path (m : Maze) (start : GridPos) (goals : List GridPos) :
    Option (List GridPos) :=
  if start ∈ goals then some [start]
  else
    astar_loop m goals 1000000
      [(heuristic start goals, 0, start)]
      (fun _ => none)
      (fun q => if q = start then some 0 else none)

/-! ## Brute-force BFS

Modelled from the spec: property P2 checks A* path lengths "against
brute-force BFS on small grids"; no BFS exists in the sources, so this is
the plain breadth-first shortest-distance search the spec describes, over
the same `neighbours` relation the pathfinder uses. -/

def bfs_loop (m : Maze) (goals : List GridPos) :
    ℕ → List GridPos → List GridPos → ℕ → Option ℕ
  | 0, _, _, _ => none
  | fuel + 1, frontier, visited, d =>
    if frontier = [] then none
    else if frontier.any (fun c => decide (c ∈ goals)) then some d
    else
      let next := ((frontier.map (neighbours m)).flatten.filter
        (fun n => decide (n ∉ visited))).dedup
      bfs_loop m goals fuel next (visited ++ next) (d + 1)

/-- Modelled from the spec: the true shortest-path distance (number of
moves) from `start` to the nearest goal under the pathfinder's move
relation, found by brute-force BFS; `none` when no goal is reachable. -/
def bfs_distance (m : Maze) (start : GridPos) (goals : List GridPos) : Option ℕ :=
  bfs_loop m goals 2000 [start] [start] 0

/-! ## Maze mutation (src/maze.py, `Maze.consume_tile`) -/

/-- `consume_tile(x, y)`: read the marker at `(x, y)`; rewrite the cell to
open floor when it held a pellet or power pellet; return the old marker.
The Python method mutates in place; here the new maze is returned. -/
def consume_tile (m : Maze) (x y : ℕ) : Char × Maze :=
  let value := (m.grid.getD y []).getD x 'X'
  if value = '.' ∨ value = 'o' then
    (value, ⟨m.grid.set y ((m.grid.getD y []).set x ' ')⟩)
  else (value, m)

/-! ## Behaviour engine (src/ai/controller.py) -/

/-- `GhostContext`: snapshot of the world for one ghost.  Positions are
grid cells (the callers pass `grid_pos` vectors holding whole numbers),
so they are modelled as integer pairs. -/
structure GhostContext where
  pacman_pos : GridPos
  ghost_pos : GridPos
  scatter_corner : GridPos
  maze : Maze
  power_mode_active : Bool
  distance_threshold : ℤ := 6

/-- `manhattan(a, b)`. -/
def manhattan (a b : GridPos) : ℤ := |a.1 - b.1| + |a.2 - b.2|

/-- `decide_mode(context)`: behaviour mode label and desired target tile
("fuite" = Flee, "attaque" = Attack, "patrouille" = Patrol). -/
def decide_mode (context : GhostContext) : String × GridPos :=
  let distance := manhattan context.ghost_pos context.pacman_pos
  if context.power_mode_active then ("fuite", context.scatter_corner)
  else if distance ≤ context.distance_threshold then ("attaque", context.pacman_pos)
  else ("patrouille", context.scatter_corner)

/-! ## Movement model (src/entities.py) -/

/-- `grid_to_pixel(grid_pos)`: the pixel-space centre of a grid cell. -/
def grid_to_pixel (grid_pos : GridPos) : ℚ × ℚ :=
  ((grid_pos.1 : ℚ) * (TILE_SIZE : ℚ) + (TILE_SIZE : ℚ) / 2,
   (grid_pos.2 : ℚ) * (TILE_SIZE : ℚ) + (TILE_SIZE : ℚ) / 2)

/-- `pixel_to_grid(pixel_pos)`: Python's `int(x // TILE_SIZE)` on a float is
floor division followed by exact conversion, i.e. the floor. -/
def pixel_to_grid (pixel_pos : ℚ × ℚ) : GridPos :=
  (⌊pixel_pos.1 / (TILE_SIZE : ℚ)⌋, ⌊pixel_pos.2 / (TILE_SIZE : ℚ)⌋)

/-- `valid_tile(maze, grid_pos)`: in bounds (per the first row's length, as
in the source) and not a wall. -/
def valid_tile (m : Maze) (grid_pos : GridPos) : Bool :=
  if grid_pos.1 < 0 ∨ grid_pos.2 < 0 ∨ (m.grid.length : ℤ) ≤ grid_pos.2 ∨
      ((m.grid.headD []).length : ℤ) ≤ grid_pos.1 then
    false
  else
    decide (cellAt m grid_pos ≠ 'X')

/-- `portal_adjust(grid_pos)`: grid-level horizontal wraparound. -/
def portal_adjust (grid_pos : GridPos) : GridPos :=
  if grid_pos.1 < 0 then (GRID_WIDTH - 1, grid_pos.2)
  else if GRID_WIDTH ≤ grid_pos.1 then (0, grid_pos.2)
  else grid_pos

/-- The movement-relevant state of an `Entity`. -/
structure Entity where
  maze : Maze
  grid_pos : GridPos
  speed : ℚ
  direction : ℚ × ℚ
  pixel_pos : ℚ × ℚ
deriving DecidableEq

/-- `Entity.update_position(dt)`: linear integration, screen-edge teleport
when the new x position crosses a world bound by more than one tile,
rejection of moves into walls, snap-to-centre on cell change or wrap, and
axis locking otherwise.  The Python method mutates `self`; here the updated
entity is returned. -/
def update_position (e : Entity) (dt : ℚ) : Entity :=
  if e.direction.1 * e.direction.1 + e.direction.2 * e.direction.2 = 0 then e
  else
    let px : ℚ × ℚ := (e.pixel_pos.1 + e.direction.1 * e.speed * dt,
                       e.pixel_pos.2 + e.direction.2 * e.speed * dt)
    let wrapped : Bool :=
      decide (px.1 < -(TILE_SIZE : ℚ)) || decide ((SCREEN_WIDTH : ℚ) + (TILE_SIZE : ℚ) < px.1)
    let px1 : ℚ :=
      if px.1 < -(TILE_SIZE : ℚ) then (SCREEN_WIDTH : ℚ) + (TILE_SIZE : ℚ)
      else if (SCREEN_WIDTH : ℚ) + (TILE_SIZE : ℚ) < px.1 then -(TILE_SIZE : ℚ)
      else px.1
    let new_grid := portal_adjust (pixel_to_grid (px1, px.2))
    if !wrapped && !valid_tile e.maze new_grid then
      { e with direction := (0, 0) }
    else if wrapped || new_grid ≠ e.grid_pos then
      { e with grid_pos := new_grid, pixel_pos := grid_to_pixel new_grid }
    else
      { e with grid_pos := new_grid,
               pixel_pos := (if e.direction.1 = 0 then (grid_to_pixel new_grid).1 else px1,
                             if e.direction.2 = 0 then (grid_to_pixel new_grid).2 else px.2) }

/-! ## Pursuer mode state (src/entities.py `Ghost` and src/game.py) -/

inductive GhostMode
  | SCATTER
  | CHASE
  | FRIGHTENED
  | EATEN
deriving DecidableEq

/-- The mode/timer fragment of a `Ghost`. -/
structure GhostModeState where
  mode : GhostMode
  frightened_timer : ℚ
deriving DecidableEq

/-- `Ghost.set_mode(mode)` (src/entities.py lines 263–266). -/
def set_mode (g : GhostModeState) (mode : GhostMode) : GhostModeState :=
  if mode = GhostMode.FRIGHTENED then
    { mode := mode, frightened_timer := POWER_MODE_DURATION }
  else
    { g with mode := mode }

/-- The frightened-countdown prefix of `Ghost.update` (src/entities.py lines
275–278) — the only part of `update` that changes the mode of a ghost that
is in `FRIGHTENED` or `CHASE` mode (the later movement code alters modes
only for `EATEN` ghosts, in `move_towards`). -/
def frightened_update (g : GhostModeState) (dt : ℚ) : GhostModeState :=
  if g.mode = GhostMode.FRIGHTENED then
    let t := g.frightened_timer - dt
    if t ≤ 0 then { mode := GhostMode.CHASE, frightened_timer := t }
    else { mode := GhostMode.FRIGHTENED, frightened_timer := t }
  else g

/-- The power-pellet branch of `Game.update` (src/game.py lines 136–139):
on consuming `'o'`, every ghost in the list receives
`ghost.set_mode(GhostMode.FRIGHTENED)`. -/
def power_pellet_trigger (ghosts : List GhostModeState) : List GhostModeState :=
  ghosts.map (fun g => set_mode g GhostMode.FRIGHTENED)

/-! ## Concrete test fixtures -/

/-- A 31 × 28 maze whose row 5 is an open corridor (with the horizontal
wraparound joining its two ends) and every other cell is a wall. -/
def corridorMaze : Maze :=
  ⟨(List.range 31).map (fun y => if y = 5 then List.replicate 28 ' ' else List.replicate 28 'X')⟩

/-- A 3 × 3 maze with a single open cell at (1, 1). -/
def tinyMaze : Maze :=
  ⟨[['X', 'X', 'X'], ['X', ' ', 'X'], ['X', 'X', 'X']]⟩

/-- An agent resting at the centre of `tinyMaze`'s open cell, headed up
into the wall at (1, 0). -/
def wallAgent : Entity :=
  ⟨tinyMaze, (1, 1), 24, (0, -1), (36, 36)⟩

/-- An agent at the centre of corridor cell (0, 5), headed left fast enough
to cross the left world bound by more than one tile in a single step. -/
def leftExitAgent : Entity :=
  ⟨corridorMaze, (0, 5), 24, (-1, 0), (12, 132)⟩

/-- An agent at the centre of corridor cell (27, 5), headed right fast
enough to cross the right world bound by more than one tile in a single
step. -/
def rightExitAgent : Entity :=
  ⟨corridorMaze, (27, 5), 24, (1, 0), (660, 132)⟩

/-! ## Search relations and the termination potential

Specification-side notions used to state and prove the pathfinder
theorems: the move relation generated by `neighbours`, reachability, the
claim's wrap-aware 4-adjacency, and the bookkeeping for the termination
argument of the A* loop. -/

/-- One pathfinder move: `b` is a traversable `neighbours`-successor of
`a`. -/
def Edge (m : Maze) (a b : GridPos) : Prop := b ∈ neighbours m a

instance (m : Maze) (a b : GridPos) : Decidable (Edge m a b) := by
  unfold Edge; infer_instance

/-- Reachability under pathfinder moves. -/
def Reaches (m : Maze) : GridPos → GridPos → Prop := Relation.ReflTransGen (Edge m)

/-- A cell lies on the settings grid. -/
def InBox (p : GridPos) : Prop :=
  0 ≤ p.1 ∧ p.1 < GRID_WIDTH ∧ 0 ≤ p.2 ∧ p.2 < GRID_HEIGHT

instance (p : GridPos) : Decidable (InBox p) := by
  unfold InBox; infer_instance

/-- 4-adjacency with horizontal wraparound as the claim words it: a
horizontal step of one column, or a wrap between column 0 and the last
column, or a vertical step of one row (vertical moves never wrap). -/
def wrapAdjacent (a b : GridPos) : Prop :=
  (a.2 = b.2 ∧ (b.1 = a.1 + 1 ∨ b.1 = a.1 - 1 ∨ (a.1 = 0 ∧ b.1 = GRID_WIDTH - 1) ∨
    (a.1 = GRID_WIDTH - 1 ∧ b.1 = 0))) ∨
  (a.1 = b.1 ∧ (b.2 = a.2 + 1 ∨ b.2 = a.2 - 1))

/-- The grid cells as a finite set. -/
def boxFinset : Finset GridPos :=
  Finset.Ico (0 : ℤ) GRID_WIDTH ×ˢ Finset.Ico (0 : ℤ) GRID_HEIGHT

/-- A reversed simple path from `start` to `p` of length `g`, every cell of
which carries a g-score no larger than its distance from `start` along the
path.  This is the invariant attached to every open-heap entry: it both
bounds every g-score by the number of grid cells and forces every push to
extend a simple path. -/
inductive RPath (m : Maze) (gs : GridPos → Option ℕ) (start : GridPos) :
    GridPos → ℕ → List GridPos → Prop
  | base : gs start = some 0 → RPath m gs start start 0 [start]
  | step {p g cs n} : RPath m gs start p g cs → Edge m p n → n ∉ cs →
      (∃ v ≤ g + 1, gs n = some v) → RPath m gs start n (g + 1) (n :: cs)

/-- The per-cell contribution to the loop's termination potential: 869 for
an unscored cell, the (capped) g-score otherwise.  Every push strictly
lowers it at the pushed cell. -/
def slack (gs : GridPos → Option ℕ) (p : GridPos) : ℕ :=
  min ((gs p).getD 869) 869

/-- The A* loop's termination potential: heap size plus total slack. -/
def phi (start : GridPos) (heap : List Entry) (gs : GridPos → Option ℕ) : ℕ :=
  heap.length + ∑ p ∈ insert start boxFinset, slack gs p

end PacSpec

namespace PacSpec

/-! # Theorems -/

/-- C5: `decide_mode` is a pure function of the snapshot (it is a plain
function of the `GhostContext` value and mutates nothing) that returns,
evaluating the rules in order: the Flee label "fuite" with the pursuer's
home/scatter cell when the frightened flag is set; otherwise the Attack
label "attaque" with the player cell when the Manhattan distance between
pursuer and player cells is at most the engagement threshold; otherwise the
Patrol label "patrouille" with the home/scatter cell.  The threshold
defaults to 6. -/
theorem decide_mode_spec (c : GhostContext) :
    (c.power_mode_active = true → decide_mode c = ("fuite", c.scatter_corner)) ∧
    (c.power_mode_active = false →
      manhattan c.ghost_pos c.pacman_pos ≤ c.distance_threshold →
      decide_mode c = ("attaque", c.pacman_pos)) ∧
    (c.power_mode_active = false →
      c.distance_threshold < manhattan c.ghost_pos c.pacman_pos →
      decide_mode c = ("patrouille", c.scatter_corner)) ∧
    (∀ p g s m pw,
      ({ pacman_pos := p, ghost_pos := g, scatter_corner := s, maze := m,
         power_mode_active := pw } : GhostContext).distance_threshold = 6) := by
  refine ⟨fun hp => ?_, fun hp hd => ?_, fun hp hd => ?_, fun _ _ _ _ _ => rfl⟩
  · simp [decide_mode, hp]
  · simp [decide_mode, hp, hd]
  · simp [decide_mode, hp, not_le.mpr hd]

/-- Witness for C5: a pursuer 3 tiles from the player with the frightened
flag clear is sent to Attack the player cell. -/
theorem decide_mode_spec_witness :
    decide_mode { pacman_pos := (5, 5), ghost_pos := (7, 6), scatter_corner := (1, 1),
                  maze := tinyMaze, power_mode_active := false } = ("attaque", (5, 5)) :=
  (decide_mode_spec _).2.1 rfl (by decide)

/-- C10: converting a grid cell to its pixel-space tile centre and flooring
back by the tile size recovers exactly the same cell, for every integer
cell. -/
theorem pixel_grid_roundtrip (c : GridPos) : pixel_to_grid (grid_to_pixel c) = c := by
  have h24 : ((TILE_SIZE : ℚ)) = 24 := by norm_num [TILE_SIZE]
  have key : ∀ z : ℤ, (((z : ℚ) * 24 + 24 / 2) / 24 : ℚ) = (z : ℚ) + 1 / 2 := by
    intro z; ring
  simp only [pixel_to_grid, grid_to_pixel, h24, key]
  have hfloor : ∀ z : ℤ, ⌊(z : ℚ) + 1 / 2⌋ = z := by
    intro z
    rw [Int.floor_int_add]
    norm_num
  rw [hfloor, hfloor]

/-- Counterexample for C3: a pursuer in Eaten mode does not keep its Eaten
mode when the power-pellet trigger fires — `Game.update` calls
`set_mode(FRIGHTENED)` on every ghost and `set_mode` has no Eaten guard, so
the eaten ghost comes out Frightened. -/
theorem power_trigger_eaten_cex :
    (power_pellet_trigger [⟨GhostMode.EATEN, 0⟩]).map GhostModeState.mode =
      [GhostMode.FRIGHTENED] ∧
    GhostMode.FRIGHTENED ≠ GhostMode.EATEN := by
  exact ⟨rfl, by decide⟩

/-- C3 (amended): when the power-pellet trigger fires, every pursuer —
including one already in Eaten mode — transitions to Frightened with its
countdown timer set to the fixed full duration. -/
theorem power_trigger_spec (ghosts : List GhostModeState) (g : GhostModeState)
    (hg : g ∈ power_pellet_trigger ghosts) :
    g.mode = GhostMode.FRIGHTENED ∧ g.frightened_timer = POWER_MODE_DURATION := by
  simp only [power_pellet_trigger, List.mem_map] at hg
  obtain ⟨g0, _, rfl⟩ := hg
  simp [set_mode]

/-- Witness for C3's amended theorem: the eaten ghost of the counterexample
scenario comes out Frightened with a full 8-second timer. -/
theorem power_trigger_spec_witness :
    (⟨GhostMode.FRIGHTENED, 8⟩ : GhostModeState).mode = GhostMode.FRIGHTENED ∧
    (⟨GhostMode.FRIGHTENED, 8⟩ : GhostModeState).frightened_timer = POWER_MODE_DURATION :=
  power_trigger_spec [⟨GhostMode.EATEN, 0⟩] _ (by decide)

/-- C4: the screen-wrap teleport is inconsistent with the pathfinder's
grid-level wraparound.  An agent at the centre of cell (0, 5) moving left
crosses the left world bound by more than one tile (pixel x becomes −36 <
−TILE_SIZE), so `update_position` teleports it — but it lands on column 0
of its row (snapped to that cell's centre), whereas the pathfinder's wrap
rule for a leftward move out of column 0 (`portal_adjust` of column −1)
produces the last column, 27.  The mirrored right exit lands on column 27
instead of 0. -/
theorem teleport_wrap_inconsistency :
    ((12 : ℚ) + (-1) * 24 * 2 < -(TILE_SIZE : ℚ)) ∧
    (update_position leftExitAgent 2).grid_pos = (0, 5) ∧
    (update_position leftExitAgent 2).pixel_pos = grid_to_pixel (0, 5) ∧
    portal_adjust (0 - 1, 5) = (27, 5) ∧
    ((660 : ℚ) + 1 * 24 * 2 > (SCREEN_WIDTH : ℚ) + (TILE_SIZE : ℚ)) ∧
    (update_position rightExitAgent 2).grid_pos = (27, 5) ∧
    portal_adjust (27 + 1, 5) = (0, 5) := by
  refine ⟨by norm_num [TILE_SIZE], ?_, ?_, by decide,
    by norm_num [SCREEN_WIDTH, GRID_WIDTH, TILE_SIZE], ?_, by decide⟩
  all_goals norm_num [update_position, leftExitAgent, rightExitAgent, pixel_to_grid,
    portal_adjust, grid_to_pixel, TILE_SIZE, SCREEN_WIDTH, GRID_WIDTH]

/-- `frightened_update` leaves any ghost that is not frightened unchanged. -/
theorem frightened_update_of_ne (g : GhostModeState) (dt : ℚ)
    (h : g.mode ≠ GhostMode.FRIGHTENED) : frightened_update g dt = g := by
  simp [frightened_update, h]

/-- Folding `frightened_update` over any step sequence leaves a chasing
ghost untouched. -/
theorem foldl_frightened_of_chase (dts : List ℚ) (g : GhostModeState)
    (h : g.mode = GhostMode.CHASE) : dts.foldl frightened_update g = g := by
  induction dts with
  | nil => rfl
  | cons d ds ih =>
    rw [List.foldl_cons, frightened_update_of_ne g d (by rw [h]; decide)]
    exact ih

/-- Folding `frightened_update` over nonnegative steps from a frightened
state with positive remaining time `t` ends in Chase exactly when the steps
add up to at least `t`, and stays Frightened otherwise. -/
theorem foldl_frightened_run (dts : List ℚ) (t : ℚ) (ht : 0 < t)
    (hdts : ∀ d ∈ dts, 0 ≤ d) :
    (dts.foldl frightened_update ⟨GhostMode.FRIGHTENED, t⟩).mode =
      if t ≤ dts.sum then GhostMode.CHASE else GhostMode.FRIGHTENED := by
  induction dts generalizing t with
  | nil => simp [not_le.mpr ht]
  | cons d ds ih =>
    have hd : 0 ≤ d := hdts d (by simp)
    have hds : ∀ x ∈ ds, 0 ≤ x := fun x hx => hdts x (by simp [hx])
    rw [List.foldl_cons]
    by_cases hc : t - d ≤ 0
    · have h1 : frightened_update ⟨GhostMode.FRIGHTENED, t⟩ d = ⟨GhostMode.CHASE, t - d⟩ := by
        simp [frightened_update, hc]
      rw [h1, foldl_frightened_of_chase ds _ rfl]
      have hsum : 0 ≤ ds.sum := List.sum_nonneg hds
      have hle : t ≤ (d :: ds).sum := by rw [List.sum_cons]; linarith
      rw [List.sum_cons] at hle ⊢
      rw [if_pos hle]
    · push_neg at hc
      have h1 : frightened_update ⟨GhostMode.FRIGHTENED, t⟩ d =
          ⟨GhostMode.FRIGHTENED, t - d⟩ := by
        simp [frightened_update, not_le.mpr hc]
      rw [h1, ih (t - d) hc hds]
      have hiff : t - d ≤ ds.sum ↔ t ≤ (d :: ds).sum := by
        rw [List.sum_cons]; constructor <;> intro <;> linarith
      by_cases h2 : t - d ≤ ds.sum
      · rw [if_pos h2, if_pos (hiff.mp h2)]
      · rw [if_neg h2, if_neg (fun hx => h2 (hiff.mpr hx))]

/-- C8: `set_mode(FRIGHTENED)` sets the countdown to the full fixed
duration, and over any sequence of nonnegative update steps the ghost is in
Chase exactly when the accumulated steps have consumed the whole duration —
it never leaves Frightened for Chase while the countdown is still
positive. -/
theorem frightened_countdown_spec (g : GhostModeState) (dts : List ℚ)
    (hdts : ∀ d ∈ dts, 0 ≤ d) :
    (set_mode g GhostMode.FRIGHTENED).mode = GhostMode.FRIGHTENED ∧
    (set_mode g GhostMode.FRIGHTENED).frightened_timer = POWER_MODE_DURATION ∧
    ((dts.foldl frightened_update (set_mode g GhostMode.FRIGHTENED)).mode = GhostMode.CHASE
      ↔ POWER_MODE_DURATION ≤ dts.sum) ∧
    ((dts.foldl frightened_update (set_mode g GhostMode.FRIGHTENED)).mode =
        GhostMode.FRIGHTENED
      ↔ dts.sum < POWER_MODE_DURATION) := by
  have hset : set_mode g GhostMode.FRIGHTENED =
      ⟨GhostMode.FRIGHTENED, POWER_MODE_DURATION⟩ := by
    simp [set_mode]
  have hpos : (0 : ℚ) < POWER_MODE_DURATION := by norm_num [POWER_MODE_DURATION]
  have hrun := foldl_frightened_run dts POWER_MODE_DURATION hpos hdts
  rw [hset]
  refine ⟨rfl, rfl, ?_, ?_⟩
  · rw [hrun]
    by_cases h : POWER_MODE_DURATION ≤ dts.sum
    · simp [h]
    · simp [h]
  · rw [hrun]
    by_cases h : POWER_MODE_DURATION ≤ dts.sum
    · simp [h, not_lt.mpr h]
    · simp [h, not_le.mp h]

/-- Witness for C8: a freshly frightened ghost stepped by 3 s then 5 s has
exactly consumed the 8-second duration and is back in Chase. -/
theorem frightened_countdown_spec_witness :
    (set_mode ⟨GhostMode.SCATTER, 0⟩ GhostMode.FRIGHTENED).mode = GhostMode.FRIGHTENED ∧
    (set_mode ⟨GhostMode.SCATTER, 0⟩ GhostMode.FRIGHTENED).frightened_timer =
      POWER_MODE_DURATION ∧
    ((([3, 5] : List ℚ).foldl frightened_update
        (set_mode ⟨GhostMode.SCATTER, 0⟩ GhostMode.FRIGHTENED)).mode = GhostMode.CHASE
      ↔ POWER_MODE_DURATION ≤ ([3, 5] : List ℚ).sum) ∧
    ((([3, 5] : List ℚ).foldl frightened_update
        (set_mode ⟨GhostMode.SCATTER, 0⟩ GhostMode.FRIGHTENED)).mode = GhostMode.FRIGHTENED
      ↔ ([3, 5] : List ℚ).sum < POWER_MODE_DURATION) :=
  frightened_countdown_spec ⟨GhostMode.SCATTER, 0⟩ [3, 5] (by norm_num)

/-- C6: with a non-zero direction, when the integrated position does not
cross a world bound (no wrap) and the grid cell derived from it is not
traversable, `update_position` leaves the pixel position and grid cell
exactly at their pre-move values and zeroes the direction.  The embedding
is a total function, so no exception can be raised. -/
theorem wall_rejection_spec (e : Entity) (dt : ℚ)
    (hdir : e.direction ≠ (0, 0))
    (hL : -(TILE_SIZE : ℚ) ≤ e.pixel_pos.1 + e.direction.1 * e.speed * dt)
    (hR : e.pixel_pos.1 + e.direction.1 * e.speed * dt ≤ (SCREEN_WIDTH : ℚ) + (TILE_SIZE : ℚ))
    (hwall : valid_tile e.maze (portal_adjust (pixel_to_grid
        (e.pixel_pos.1 + e.direction.1 * e.speed * dt,
         e.pixel_pos.2 + e.direction.2 * e.speed * dt))) = false) :
    update_position e dt = { e with direction := (0, 0) } ∧
    (update_position e dt).grid_pos = e.grid_pos ∧
    (update_position e dt).pixel_pos = e.pixel_pos := by
  have hsq : ¬(e.direction.1 * e.direction.1 + e.direction.2 * e.direction.2 = 0) := by
    intro h
    apply hdir
    have h1 : e.direction.1 * e.direction.1 = 0 := by
      nlinarith [mul_self_nonneg e.direction.1, mul_self_nonneg e.direction.2]
    have h2 : e.direction.2 * e.direction.2 = 0 := by
      nlinarith [mul_self_nonneg e.direction.1, mul_self_nonneg e.direction.2]
    exact Prod.ext (mul_self_eq_zero.mp h1) (mul_self_eq_zero.mp h2)
  have hL' : ¬(e.pixel_pos.1 + e.direction.1 * e.speed * dt < -(TILE_SIZE : ℚ)) :=
    not_lt.mpr hL
  have hR' : ¬((SCREEN_WIDTH : ℚ) + (TILE_SIZE : ℚ) < e.pixel_pos.1 + e.direction.1 * e.speed * dt) :=
    not_lt.mpr hR
  have hmain : update_position e dt = { e with direction := (0, 0) } := by
    simp only [update_position, if_neg hsq, if_neg hL', if_neg hR',
      decide_eq_false hL', decide_eq_false hR', Bool.or_self, Bool.not_false,
      Bool.true_and, hwall, Bool.and_self, if_pos]
  exact ⟨hmain, by rw [hmain], by rw [hmain]⟩

/-- Witness for C6: the `wallAgent` of the fixtures drives up into a wall
and is rejected: pixel and cell revert, direction becomes zero. -/
theorem wall_rejection_spec_witness :
    update_position wallAgent 1 = { wallAgent with direction := (0, 0) } ∧
    (update_position wallAgent 1).grid_pos = wallAgent.grid_pos ∧
    (update_position wallAgent 1).pixel_pos = wallAgent.pixel_pos :=
  wall_rejection_spec wallAgent 1
    (by simp [wallAgent, Prod.ext_iff])
    (by norm_num [wallAgent, TILE_SIZE])
    (by norm_num [wallAgent, TILE_SIZE, SCREEN_WIDTH, GRID_WIDTH])
    (by norm_num [wallAgent, tinyMaze, pixel_to_grid, portal_adjust, valid_tile,
      cellAt, TILE_SIZE, GRID_WIDTH])

/-- Reading a cell at nonnegative coordinates is a double `getD` lookup. -/
theorem cellAt_natCast (m : Maze) (x y : ℕ) :
    cellAt m ((x : ℤ), (y : ℤ)) = (m.grid.getD y []).getD x 'X' := by
  have hx : ¬((x : ℤ) < 0) := not_lt.mpr (Int.natCast_nonneg x)
  have hy : ¬((y : ℤ) < 0) := not_lt.mpr (Int.natCast_nonneg y)
  simp [cellAt, hx, hy]

/-- C9: for an in-bounds cell, `consume_tile` returns the cell's previous
marker, rewrites the cell to open floor exactly when the marker was a
pellet or a power pellet (leaving it unchanged otherwise), leaves every
other cell unchanged, and in particular never creates or destroys a wall
anywhere. -/
theorem consume_tile_spec (m : Maze) (x y : ℕ)
    (hy : y < m.grid.length) (hx : x < (m.grid.getD y []).length) :
    (consume_tile m x y).1 = cellAt m ((x : ℤ), (y : ℤ)) ∧
    cellAt (consume_tile m x y).2 ((x : ℤ), (y : ℤ)) =
      (if cellAt m ((x : ℤ), (y : ℤ)) = '.' ∨ cellAt m ((x : ℤ), (y : ℤ)) = 'o'
       then ' ' else cellAt m ((x : ℤ), (y : ℤ))) ∧
    (∀ p : GridPos, p ≠ ((x : ℤ), (y : ℤ)) →
      cellAt (consume_tile m x y).2 p = cellAt m p) ∧
    (∀ p : GridPos, cellAt (consume_tile m x y).2 p = 'X' ↔ cellAt m p = 'X') := by
  by_cases hpel : (m.grid.getD y []).getD x 'X' = '.' ∨ (m.grid.getD y []).getD x 'X' = 'o'
  case neg =>
    have hct : consume_tile m x y = ((m.grid.getD y []).getD x 'X', m) := by
      simp only [consume_tile]
      rw [if_neg hpel]
    rw [hct]
    exact ⟨(cellAt_natCast m x y).symm,
      by rw [cellAt_natCast m x y, if_neg hpel],
      fun p _ => rfl, fun p => Iff.rfl⟩
  case pos =>
    have hct : consume_tile m x y = ((m.grid.getD y []).getD x 'X',
        (⟨m.grid.set y ((m.grid.getD y []).set x ' ')⟩ : Maze)) := by
      simp only [consume_tile]
      rw [if_pos hpel]
    rw [hct]
    have hx' : x < (m.grid[y]?.getD []).length := by
      rw [← List.getD_eq_getElem?_getD]; exact hx
    have hcenter :
        cellAt (⟨m.grid.set y ((m.grid.getD y []).set x ' ')⟩ : Maze) ((x : ℤ), (y : ℤ)) =
          ' ' := by
      rw [cellAt_natCast]
      simp only [List.getD_eq_getElem?_getD]
      rw [List.getElem?_set_self hy]
      simp only [Option.getD_some]
      rw [List.getElem?_set_self hx']
      simp
    have hframe : ∀ p : GridPos, p ≠ ((x : ℤ), (y : ℤ)) →
        cellAt (⟨m.grid.set y ((m.grid.getD y []).set x ' ')⟩ : Maze) p = cellAt m p := by
      intro p hne
      by_cases hneg : p.1 < 0 ∨ p.2 < 0
      · simp [cellAt, hneg]
      · have hneg' : ¬(p.1 < 0 ∨ p.2 < 0) := hneg
        push_neg at hneg
        obtain ⟨hp1, hp2⟩ := hneg
        simp only [cellAt, if_neg hneg', List.getD_eq_getElem?_getD]
        by_cases hyy : p.2.toNat = y
        · have hxx : p.1.toNat ≠ x := fun hxeq => hne (Prod.ext
            (by rw [← hxeq, Int.toNat_of_nonneg hp1])
            (by rw [← hyy, Int.toNat_of_nonneg hp2]))
          rw [hyy, List.getElem?_set_self hy]
          simp only [Option.getD_some]
          rw [List.getElem?_set_ne (fun h => hxx h.symm)]
        · rw [List.getElem?_set_ne (fun h => hyy h.symm)]
    refine ⟨(cellAt_natCast m x y).symm, ?_, hframe, ?_⟩
    · rw [hcenter, cellAt_natCast m x y, if_pos hpel]
    · intro p
      by_cases hpe : p = ((x : ℤ), (y : ℤ))
      · subst hpe
        rw [hcenter, cellAt_natCast]
        constructor
        · intro h; exact absurd h (by decide)
        · intro hX
          rcases hpel with h | h <;> rw [hX] at h <;> exact absurd h (by decide)
      · rw [hframe p hpe]

/-- Witness for C9: consuming the pellet at (1, 1) of a 2 × 2 test grid
returns the pellet marker, opens the cell, and leaves the rest alone. -/
theorem consume_tile_spec_witness :
    (consume_tile ⟨[['X', 'X'], ['X', '.']]⟩ 1 1).1 =
      cellAt ⟨[['X', 'X'], ['X', '.']]⟩ ((1 : ℕ), ((1 : ℕ) : ℤ)) ∧
    cellAt (consume_tile ⟨[['X', 'X'], ['X', '.']]⟩ 1 1).2 ((1 : ℕ), ((1 : ℕ) : ℤ)) =
      (if cellAt ⟨[['X', 'X'], ['X', '.']]⟩ ((1 : ℕ), ((1 : ℕ) : ℤ)) = '.' ∨
          cellAt ⟨[['X', 'X'], ['X', '.']]⟩ ((1 : ℕ), ((1 : ℕ) : ℤ)) = 'o'
       then ' ' else cellAt ⟨[['X', 'X'], ['X', '.']]⟩ ((1 : ℕ), ((1 : ℕ) : ℤ))) ∧
    (∀ p : GridPos, p ≠ ((1 : ℕ), ((1 : ℕ) : ℤ)) →
      cellAt (consume_tile ⟨[['X', 'X'], ['X', '.']]⟩ 1 1).2 p =
        cellAt ⟨[['X', 'X'], ['X', '.']]⟩ p) ∧
    (∀ p : GridPos, cellAt (consume_tile ⟨[['X', 'X'], ['X', '.']]⟩ 1 1).2 p = 'X' ↔
      cellAt ⟨[['X', 'X'], ['X', '.']]⟩ p = 'X') :=
  consume_tile_spec ⟨[['X', 'X'], ['X', '.']]⟩ 1 1 (by decide) (by decide)

set_option maxRecDepth 100000 in
/-- Counterexample for C1: on the corridor grid, from start (1, 5) to goal
(26, 5) the true wrap-aware shortest distance is 3 moves (left through the
wraparound), but `astar_path` returns a 26-cell path (25 moves) — the
plain-Manhattan heuristic is not admissible for the wrap-aware metric, as
`heuristic` from (0, 5) to goal (27, 5) is 27 while the true distance is a
single wrapping move. -/
theorem astar_wrap_suboptimal_cex :
    (astar_path corridorMaze (1, 5) [(26, 5)]).map List.length = some 26 ∧
    bfs_distance corridorMaze (1, 5) [(26, 5)] = some 3 ∧
    (26 : ℕ) ≠ 3 + 1 ∧
    heuristic (0, 5) [(27, 5)] = 27 ∧
    bfs_distance corridorMaze (0, 5) [(27, 5)] = some 1 ∧
    (1 : ℕ) < 27 := by
  exact ⟨by decide, by decide, by decide, by decide, by decide, by decide⟩

set_option maxRecDepth 100000 in
/-- C1 (amended): `astar_path` returns a path whose length matches the
brute-force-BFS shortest distance for at least one scenario that does not
use the wraparound (2 moves from (1, 5) to (3, 5)) and at least one whose
shortest route does use the wraparound (the single wrapping move from
(0, 5) to (27, 5), where the Manhattan distance of 27 shows every non-wrap
route is longer) — but not for every start/goal pair, because the
minimum-Manhattan heuristic can exceed the true wrap-aware distance. -/
theorem astar_optimal_scenarios :
    (astar_path corridorMaze (1, 5) [(3, 5)]).map List.length = some 3 ∧
    bfs_distance corridorMaze (1, 5) [(3, 5)] = some 2 ∧
    astar_path corridorMaze (0, 5) [(27, 5)] = some [(0, 5), (27, 5)] ∧
    bfs_distance corridorMaze (0, 5) [(27, 5)] = some 1 ∧
    heuristic (0, 5) [(27, 5)] = 27 ∧
    (1 : ℕ) < 27 := by
  exact ⟨by decide, by decide, by decide, by decide, by decide, by decide⟩

/-- Every pathfinder move lands on the grid and on a non-wall cell. -/
theorem edge_dest {m : Maze} {a b : GridPos} (h : Edge m a b) :
    InBox b ∧ cellAt m b ≠ 'X' := by
  unfold Edge neighbours at h
  simp only [List.mem_filterMap, List.mem_cons, List.not_mem_nil, or_false] at h
  obtain ⟨d, hd, hval⟩ := h
  by_cases hy : a.2 + d.2 < 0 ∨ GRID_HEIGHT ≤ a.2 + d.2
  · rw [if_pos hy] at hval; exact Option.noConfusion hval
  · rw [if_neg hy] at hval
    by_cases hw : cellAt m
        (if a.1 + d.1 < 0 then GRID_WIDTH - 1 else if GRID_WIDTH ≤ a.1 + d.1 then 0
         else a.1 + d.1, a.2 + d.2) = 'X'
    · rw [if_pos hw] at hval; exact Option.noConfusion hval
    · rw [if_neg hw] at hval
      obtain rfl := Option.some_inj.mp hval
      refine ⟨?_, hw⟩
      push_neg at hy
      unfold InBox
      dsimp only
      simp only [GRID_WIDTH, GRID_HEIGHT] at *
      split_ifs <;> omega

/-- On an in-grid source cell, every pathfinder move is a wrap-aware
4-adjacency in the claim's sense. -/
theorem edge_wrapAdjacent {m : Maze} {a b : GridPos} (ha : InBox a) (h : Edge m a b) :
    wrapAdjacent a b := by
  obtain ⟨ha1, ha2, ha3, ha4⟩ := ha
  unfold Edge neighbours at h
  simp only [List.mem_filterMap, List.mem_cons, List.not_mem_nil, or_false] at h
  obtain ⟨d, hd, hval⟩ := h
  have hd4 : d = ((-1 : ℤ), (0 : ℤ)) ∨ d = (1, 0) ∨ d = (0, -1) ∨ d = (0, 1) := by
    simpa using hd
  by_cases hy : a.2 + d.2 < 0 ∨ GRID_HEIGHT ≤ a.2 + d.2
  · rw [if_pos hy] at hval; exact Option.noConfusion hval
  · rw [if_neg hy] at hval
    by_cases hw : cellAt m
        (if a.1 + d.1 < 0 then GRID_WIDTH - 1 else if GRID_WIDTH ≤ a.1 + d.1 then 0
         else a.1 + d.1, a.2 + d.2) = 'X'
    · rw [if_pos hw] at hval; exact Option.noConfusion hval
    · rw [if_neg hw] at hval
      obtain rfl := Option.some_inj.mp hval
      unfold wrapAdjacent
      dsimp only
      push_neg at hy
      simp only [GRID_WIDTH, GRID_HEIGHT] at *
      rcases hd4 with rfl | rfl | rfl | rfl <;> dsimp only at * <;> split_ifs <;> omega

/-- The reversed path of an `RPath` has length one more than its move
count. -/
theorem RPath.length_eq {m : Maze} {gs : GridPos → Option ℕ} {start p : GridPos}
    {g : ℕ} {cs : List GridPos} (h : RPath m gs start p g cs) : cs.length = g + 1 := by
  induction h with
  | base _ => rfl
  | step _ _ _ _ ih => simp [List.length_cons, ih]

/-- The cells of an `RPath` are pairwise distinct. -/
theorem RPath.nodup {m : Maze} {gs : GridPos → Option ℕ} {start p : GridPos}
    {g : ℕ} {cs : List GridPos} (h : RPath m gs start p g cs) : cs.Nodup := by
  induction h with
  | base _ => simp
  | step _ _ hnm _ ih => exact List.nodup_cons.mpr ⟨hnm, ih⟩

/-- Every cell of an `RPath` is the start or an in-grid cell. -/
theorem RPath.mem_box {m : Maze} {gs : GridPos → Option ℕ} {start p : GridPos}
    {g : ℕ} {cs : List GridPos} (h : RPath m gs start p g cs) :
    ∀ x ∈ cs, x = start ∨ InBox x := by
  induction h with
  | base _ => intro x hx; left; simpa using hx
  | step _ he _ _ ih =>
    intro x hx
    rcases List.mem_cons.mp hx with rfl | hx
    · exact Or.inr (edge_dest he).1
    · exact ih x hx

/-- The endpoint of an `RPath` carries a score bounded by its length. -/
theorem RPath.endpoint_score {m : Maze} {gs : GridPos → Option ℕ} {start p : GridPos}
    {g : ℕ} {cs : List GridPos} (h : RPath m gs start p g cs) :
    ∃ v ≤ g, gs p = some v := by
  cases h with
  | base h0 => exact ⟨0, le_refl 0, h0⟩
  | step _ _ _ hsc => exact hsc

/-- Every cell of an `RPath` carries a score bounded by the path length. -/
theorem RPath.mem_score {m : Maze} {gs : GridPos → Option ℕ} {start p : GridPos}
    {g : ℕ} {cs : List GridPos} (h : RPath m gs start p g cs) :
    ∀ x ∈ cs, ∃ v ≤ g, gs x = some v := by
  induction h with
  | base h0 => intro x hx; rw [List.mem_singleton.mp hx]; exact ⟨0, le_refl 0, h0⟩
  | step _ _ _ hsc ih =>
    intro x hx
    rcases List.mem_cons.mp hx with rfl | hx
    · exact hsc
    · obtain ⟨v, hv, hs⟩ := ih x hx
      exact ⟨v, hv.trans (Nat.le_succ _), hs⟩

/-- An in-grid cell belongs to `boxFinset`. -/
theorem inBox_mem_boxFinset {p : GridPos} (h : InBox p) : p ∈ boxFinset := by
  obtain ⟨h1, h2, h3, h4⟩ := h
  simp [boxFinset, Finset.mem_product, Finset.mem_Ico, h1, h2, h3, h4]

/-- The grid has 868 cells. -/
theorem boxFinset_card : boxFinset.card = 868 := by
  rw [boxFinset, Finset.card_product, Int.card_Ico, Int.card_Ico]
  simp only [GRID_WIDTH, GRID_HEIGHT]
  decide

/-- An `RPath` is a simple path through the 868-cell grid (plus possibly
the start), so its move count is at most 868. -/
theorem RPath.g_bound {m : Maze} {gs : GridPos → Option ℕ} {start p : GridPos}
    {g : ℕ} {cs : List GridPos} (h : RPath m gs start p g cs) : g ≤ 868 := by
  have hsub : cs.toFinset ⊆ insert start boxFinset := by
    intro x hx
    rcases h.mem_box x (List.mem_toFinset.mp hx) with rfl | hbox
    · exact Finset.mem_insert_self x _
    · exact Finset.mem_insert_of_mem (inBox_mem_boxFinset hbox)
  have hlen : cs.length ≤ (insert start boxFinset).card := by
    rw [← List.toFinset_card_of_nodup h.nodup]
    exact Finset.card_le_card hsub
  have hcard : (insert start boxFinset).card ≤ 869 := by
    have := Finset.card_insert_le start boxFinset
    rw [boxFinset_card] at this
    exact this
  have := h.length_eq
  omega

/-- `RPath` is stable under pointwise decrease of the score map. -/
theorem RPath.mono {m : Maze} {gs gs' : GridPos → Option ℕ} {start p : GridPos}
    {g : ℕ} {cs : List GridPos}
    (hdec : ∀ q v, gs q = some v → ∃ v' ≤ v, gs' q = some v')
    (h : RPath m gs start p g cs) : RPath m gs' start p g cs := by
  induction h with
  | base h0 =>
    obtain ⟨v', hv', hs'⟩ := hdec start 0 h0
    exact RPath.base (by rwa [Nat.le_zero.mp hv'] at hs')
  | step _ he hnm hsc ih =>
    obtain ⟨v, hv, hs⟩ := hsc
    obtain ⟨v', hv', hs'⟩ := hdec _ v hs
    exact RPath.step ih he hnm ⟨v', hv'.trans hv, hs'⟩

/-- The running minimum of a fold over `entryLt` is one of the candidates. -/
theorem foldl_min_mem (l : List Entry) : ∀ e : Entry,
    l.foldl (fun best x => if entryLt x best then x else best) e ∈ e :: l := by
  induction l with
  | nil => intro e; simp
  | cons x xs ih =>
    intro e
    rw [List.foldl_cons]
    rcases List.mem_cons.mp (ih (if entryLt x e then x else e)) with h | h
    · rw [h]
      split_ifs
      · exact List.mem_cons_of_mem _ (List.mem_cons_self x xs)
      · exact List.mem_cons_self e _
    · exact List.mem_cons_of_mem _ (List.mem_cons_of_mem _ h)

/-- The popped entry is in the heap. -/
theorem heapMin_mem (e : Entry) (l : List Entry) : heapMin e l ∈ e :: l :=
  foldl_min_mem l e

/-- Removing a present entry shrinks the heap by one. -/
theorem eraseEntry_length {l : List Entry} {t : Entry} (h : t ∈ l) :
    (eraseEntry l t).length + 1 = l.length := by
  induction l with
  | nil => cases h
  | cons x xs ih =>
    rw [eraseEntry]
    by_cases hx : x = t
    · rw [if_pos hx]; rfl
    · rw [if_neg hx]
      rcases List.mem_cons.mp h with h' | h'
      · exact absurd h'.symm hx
      · simp [List.length_cons, ih h']

/-- Entries of the shrunk heap come from the original heap. -/
theorem eraseEntry_subset {l : List Entry} {t : Entry} :
    ∀ x ∈ eraseEntry l t, x ∈ l := by
  induction l with
  | nil => intro x hx; cases hx
  | cons y ys ih =>
    intro x hx
    rw [eraseEntry] at hx
    by_cases hy : y = t
    · rw [if_pos hy] at hx; exact List.mem_cons_of_mem _ hx
    · rw [if_neg hy] at hx
      rcases List.mem_cons.mp hx with h' | h'
      · exact h' ▸ List.mem_cons_self y ys
      · exact List.mem_cons_of_mem _ (ih x h')

/-- An entry different from the removed one survives the removal. -/
theorem mem_eraseEntry_of_ne {l : List Entry} {t x : Entry} (hx : x ∈ l) (hne : x ≠ t) :
    x ∈ eraseEntry l t := by
  induction l with
  | nil => cases hx
  | cons y ys ih =>
    rw [eraseEntry]
    by_cases hy : y = t
    · rw [if_pos hy]
      rcases List.mem_cons.mp hx with h' | h'
      · exact absurd (h'.trans hy) hne
      · exact h'
    · rw [if_neg hy]
      rcases List.mem_cons.mp hx with h' | h'
      · exact h' ▸ List.mem_cons_self y _
      · exact List.mem_cons_of_mem _ (ih h')

/-- The A* loop invariant, relative to an exemption predicate `ex` used
while the popped cell's neighbours are still being relaxed.  `cf` is the
`came_from` map, `gs` the `g_scores` map. -/
structure SearchInvAux (m : Maze) (start : GridPos) (goals : List GridPos)
    (ex : GridPos → Prop) (heap : List Entry) (cf : GridPos → Option GridPos)
    (gs : GridPos → Option ℕ) : Prop where
  gs_start : gs start = some 0
  gs_bound : ∀ p v, gs p = some v → v ≤ 868
  cf_edge : ∀ n c, cf n = some c → Edge m c n
  cf_lt : ∀ n c, cf n = some c → ∃ gn gc, gs n = some gn ∧ gs c = some gc ∧ gc < gn
  scored_parent : ∀ n, n ≠ start → gs n ≠ none → cf n ≠ none
  heap_path : ∀ f g p, (f, g, p) ∈ heap → ∃ cs, RPath m gs start p g cs
  goal_entry : ∀ p ∈ goals, gs p ≠ none → ∃ f g, (f, g, p) ∈ heap
  closure : ∀ p, gs p ≠ none → ex p ∨ (∃ f g, (f, g, p) ∈ heap) ∨
    ∀ n ∈ neighbours m p, gs n ≠ none

/-- The A* loop invariant proper (no exemption). -/
def SearchInv (m : Maze) (start : GridPos) (goals : List GridPos)
    (heap : List Entry) (cf : GridPos → Option GridPos)
    (gs : GridPos → Option ℕ) : Prop :=
  SearchInvAux m start goals (fun _ => False) heap cf gs

/-- `reconstruct_path` succeeds and returns a chain of pathfinder moves
from `start` to `current` (in front of the accumulator) whenever the
parent map decreases the g-score towards `start` and the fuel exceeds the
g-score of `current`. -/
theorem reconstruct_spec (m : Maze) (start : GridPos)
    (cf : GridPos → Option GridPos) (gs : GridPos → Option ℕ)
    (hedge : ∀ n c, cf n = some c → Edge m c n)
    (hlt : ∀ n c, cf n = some c → ∃ gn gc, gs n = some gn ∧ gs c = some gc ∧ gc < gn)
    (hpar : ∀ n, n ≠ start → gs n ≠ none → cf n ≠ none) :
    ∀ (gv : ℕ) (current : GridPos) (acc : List GridPos) (fuel : ℕ),
      gs current = some gv → gv < fuel →
      ∃ pth : List GridPos,
        reconstruct_path fuel cf current acc = some (pth ++ acc) ∧
        pth ≠ [] ∧ pth.head? = some start ∧ pth.getLast? = some current ∧
        pth.Chain' (Edge m) := by
  intro gv
  induction gv using Nat.strong_induction_on with
  | _ gv ih =>
    intro current acc fuel hcur hfuel
    cases fuel with
    | zero => omega
    | succ fuel =>
      cases hc : cf current with
      | none =>
        have hcs : current = start := by
          by_contra hne
          exact hpar current hne (by rw [hcur]; exact fun h => Option.noConfusion h) hc
        refine ⟨[current], ?_, by simp, by rw [hcs]; rfl, rfl, List.chain'_singleton _⟩
        rw [reconstruct_path, hc]
        rfl
      | some prev =>
        obtain ⟨gn, gc, hgn, hgc, hlt'⟩ := hlt current prev hc
        have hgv : gn = gv := by rw [hcur] at hgn; exact (Option.some_inj.mp hgn).symm
        obtain ⟨pth', heq, hne, hhead, hlast, hchain⟩ :=
          ih gc (by omega) prev (current :: acc) fuel hgc (by omega)
        refine ⟨pth' ++ [current], ?_, by simp, ?_, by simp, ?_⟩
        · rw [reconstruct_path, hc]
          dsimp only
          rw [heq, List.append_assoc]
          rfl
        · cases pth' with
          | nil => exact absurd rfl hne
          | cons a t => simpa using hhead
        · rw [List.chain'_append]
          refine ⟨hchain, List.chain'_singleton _, ?_⟩
          intro x hx y hy
          have hx' : x = prev := by
            rw [hlast] at hx
            exact (Option.mem_some_iff.mp hx).symm
          have hy' : y = current := by
            have : current = y := by simpa using hy
            exact this.symm
          rw [hx', hy']
          exact hedge current prev hc

/-- One neighbour relaxation preserves the loop invariant, scores the
neighbour, only lowers g-scores, does not increase the termination
potential, and keeps the popped entry's path valid. -/
theorem expand_spec (m : Maze) (start top n : GridPos) (goals : List GridPos)
    (gtop : ℕ) (cs0 : List GridPos)
    (heap : List Entry) (cf : GridPos → Option GridPos) (gs : GridPos → Option ℕ)
    (hedge : Edge m top n)
    (htop : RPath m gs start top gtop cs0)
    (hinv : SearchInvAux m start goals (fun p => p = top) heap cf gs) :
    SearchInvAux m start goals (fun p => p = top)
      (expand top (gtop + 1) goals (heap, cf, gs) n).1
      (expand top (gtop + 1) goals (heap, cf, gs) n).2.1
      (expand top (gtop + 1) goals (heap, cf, gs) n).2.2 ∧
    (expand top (gtop + 1) goals (heap, cf, gs) n).2.2 n ≠ none ∧
    (∀ q v, gs q = some v → ∃ v' ≤ v,
      (expand top (gtop + 1) goals (heap, cf, gs) n).2.2 q = some v') ∧
    (expand top (gtop + 1) goals (heap, cf, gs) n).1.length +
        ∑ p ∈ insert start boxFinset,
          slack (expand top (gtop + 1) goals (heap, cf, gs) n).2.2 p ≤
      heap.length + ∑ p ∈ insert start boxFinset, slack gs p ∧
    RPath m (expand top (gtop + 1) goals (heap, cf, gs) n).2.2 start top gtop cs0 := by
  by_cases hbet : (match gs n with
    | none => true
    | some old => decide (gtop + 1 < old)) = true
  case neg =>
    have hst : expand top (gtop + 1) goals (heap, cf, gs) n = (heap, cf, gs) := by
      simp only [expand]
      rw [if_neg hbet]
    rw [hst]
    have hold : gs n ≠ none := by
      cases hgsn : gs n with
      | none => rw [hgsn] at hbet; simp at hbet
      | some old => exact fun h => Option.noConfusion h
    exact ⟨hinv, hold, fun q v h => ⟨v, le_refl v, h⟩, le_refl _, htop⟩
  case pos =>
    have hst : expand top (gtop + 1) goals (heap, cf, gs) n =
        ((gtop + 1 + heuristic n goals, gtop + 1, n) :: heap,
         fun q => if q = n then some top else cf q,
         fun q => if q = n then some (gtop + 1) else gs q) := by
      simp only [expand]
      rw [if_pos hbet]
    rw [hst]
    set cf' := fun q => if q = n then some top else cf q with hcf'
    set gs' := fun q => if q = n then some (gtop + 1) else gs q with hgs'
    dsimp only
    have hcond : gs n = none ∨ ∃ old, gs n = some old ∧ gtop + 1 < old := by
      cases hgsn : gs n with
      | none => exact Or.inl rfl
      | some old =>
        rw [hgsn] at hbet
        simp only [decide_eq_true_eq] at hbet
        exact Or.inr ⟨old, rfl, hbet⟩
    have hgs'n : gs' n = some (gtop + 1) := by rw [hgs']; simp
    have hcf'n : cf' n = some top := by rw [hcf']; simp
    have hgs'ne : ∀ q, q ≠ n → gs' q = gs q := by
      intro q hq; rw [hgs']; simp [hq]
    have hcf'ne : ∀ q, q ≠ n → cf' q = cf q := by
      intro q hq; rw [hcf']; simp [hq]
    have hnot : n ∉ cs0 := by
      intro hmem
      obtain ⟨v, hv, hsv⟩ := htop.mem_score n hmem
      rcases hcond with hnone | ⟨old, hsome, hlt⟩
      · rw [hnone] at hsv; exact Option.noConfusion hsv
      · rw [hsome] at hsv
        have : v = old := Option.some_inj.mp hsv.symm
        omega
    have hnstart : n ≠ start := by
      intro h
      rw [h] at hcond
      rcases hcond with hnone | ⟨old, hsome, hlt⟩
      · rw [hinv.gs_start] at hnone; exact Option.noConfusion hnone
      · rw [hinv.gs_start] at hsome
        have : (0 : ℕ) = old := Option.some_inj.mp hsome
        omega
    have hdec : ∀ q v, gs q = some v → ∃ v' ≤ v, gs' q = some v' := by
      intro q v hq
      by_cases hqn : q = n
      · subst hqn
        rcases hcond with hnone | ⟨old, hsome, hlt⟩
        · rw [hq] at hnone; exact Option.noConfusion hnone
        · rw [hq] at hsome
          have hval : v = old := Option.some_inj.mp hsome
          exact ⟨gtop + 1, by omega, hgs'n⟩
      · exact ⟨v, le_refl v, by rw [hgs'ne q hqn]; exact hq⟩
    have hmono : ∀ q, gs q ≠ none → gs' q ≠ none := by
      intro q hq
      cases hgq : gs q with
      | none => exact absurd hgq hq
      | some v =>
        obtain ⟨v', _, h'⟩ := hdec q v hgq
        rw [h']
        exact fun h => Option.noConfusion h
    have htop' : RPath m gs' start top gtop cs0 := htop.mono hdec
    have hrp : RPath m gs' start n (gtop + 1) (n :: cs0) :=
      RPath.step htop' hedge hnot ⟨gtop + 1, le_refl _, hgs'n⟩
    have hb : gtop + 1 ≤ 868 := hrp.g_bound
    obtain ⟨vt, hvt, hvts⟩ := htop'.endpoint_score
    have hnbox : n ∈ insert start boxFinset :=
      Finset.mem_insert_of_mem (inBox_mem_boxFinset (edge_dest hedge).1)
    have hslackn : slack gs' n < slack gs n := by
      unfold slack
      rw [hgs'n]
      rcases hcond with hnone | ⟨old, hsome, hlt⟩
      · rw [hnone]
        simp only [Option.getD_some, Option.getD_none]
        omega
      · rw [hsome]
        simp only [Option.getD_some]
        omega
    have hsum : ∑ p ∈ insert start boxFinset, slack gs' p <
        ∑ p ∈ insert start boxFinset, slack gs p := by
      apply Finset.sum_lt_sum
      · intro p _
        by_cases hpn : p = n
        · exact hpn ▸ le_of_lt hslackn
        · unfold slack
          rw [hgs'ne p hpn]
      · exact ⟨n, hnbox, hslackn⟩
    refine ⟨⟨?_, ?_, ?_, ?_, ?_, ?_, ?_, ?_⟩, ?_, ?_, ?_, ?_⟩
    · rw [hgs'ne start (fun h => hnstart h.symm)]
      exact hinv.gs_start
    · intro q v hq
      by_cases hqn : q = n
      · subst hqn
        rw [hgs'n] at hq
        have : gtop + 1 = v := Option.some_inj.mp hq
        omega
      · rw [hgs'ne q hqn] at hq
        exact hinv.gs_bound q v hq
    · intro q c hq
      by_cases hqn : q = n
      · subst hqn
        rw [hcf'n] at hq
        rw [← Option.some_inj.mp hq]
        exact hedge
      · rw [hcf'ne q hqn] at hq
        exact hinv.cf_edge q c hq
    · intro q c hq
      by_cases hqn : q = n
      · subst hqn
        rw [hcf'n] at hq
        obtain rfl : top = c := Option.some_inj.mp hq
        exact ⟨gtop + 1, vt, hgs'n, hvts, by omega⟩
      · rw [hcf'ne q hqn] at hq
        obtain ⟨gq, gc, hgq, hgc, hlt'⟩ := hinv.cf_lt q c hq
        refine ⟨gq, ?_⟩
        by_cases hcn : c = n
        · subst hcn
          rcases hcond with hnone | ⟨old, hsome, hlt⟩
          · rw [hgc] at hnone; exact absurd hnone (fun h => Option.noConfusion h)
          · rw [hgc] at hsome
            have : gc = old := Option.some_inj.mp hsome
            exact ⟨gtop + 1, by rw [hgs'ne q hqn]; exact hgq, hgs'n, by omega⟩
        · exact ⟨gc, by rw [hgs'ne q hqn]; exact hgq, by rw [hgs'ne c hcn]; exact hgc, hlt'⟩
    · intro q hqs hq
      by_cases hqn : q = n
      · subst hqn
        rw [hcf'n]
        exact fun h => Option.noConfusion h
      · rw [hgs'ne q hqn] at hq
        rw [hcf'ne q hqn]
        exact hinv.scored_parent q hqs hq
    · intro f g p hp
      rcases List.mem_cons.mp hp with heq | hp
      · obtain ⟨hf, hg, hpn⟩ : f = gtop + 1 + heuristic n goals ∧ g = gtop + 1 ∧ p = n := by
          simpa [Prod.ext_iff] using heq
        rw [hg, hpn]
        exact ⟨n :: cs0, hrp⟩
      · obtain ⟨cs, hcs⟩ := hinv.heap_path f g p hp
        exact ⟨cs, hcs.mono hdec⟩
    · intro p hpg hps
      by_cases hpn : p = n
      · rw [hpn]
        exact ⟨gtop + 1 + heuristic n goals, gtop + 1, List.mem_cons_self _ _⟩
      · rw [hgs'ne p hpn] at hps
        obtain ⟨f, g, hfg⟩ := hinv.goal_entry p hpg hps
        exact ⟨f, g, List.mem_cons_of_mem _ hfg⟩
    · intro p hps
      by_cases hpn : p = n
      · exact Or.inr (Or.inl ⟨gtop + 1 + heuristic n goals, gtop + 1,
          hpn ▸ List.mem_cons_self _ _⟩)
      · rw [hgs'ne p hpn] at hps
        rcases hinv.closure p hps with hex | ⟨f, g, hfg⟩ | hnb
        · exact Or.inl hex
        · exact Or.inr (Or.inl ⟨f, g, List.mem_cons_of_mem _ hfg⟩)
        · exact Or.inr (Or.inr (fun q hq => hmono q (hnb q hq)))
    · rw [hgs'n]
      exact fun h => Option.noConfusion h
    · exact hdec
    · simp only [List.length_cons]
      omega
    · exact htop'

/-- Relaxing a whole neighbour list preserves the loop invariant, scores
every relaxed neighbour, keeps previously scored cells scored, and does
not increase the termination potential. -/
theorem expand_foldl_spec (m : Maze) (start top : GridPos) (goals : List GridPos)
    (gtop : ℕ) (cs0 : List GridPos) :
    ∀ (ns : List GridPos) (heap : List Entry) (cf : GridPos → Option GridPos)
      (gs : GridPos → Option ℕ),
      (∀ n ∈ ns, Edge m top n) →
      RPath m gs start top gtop cs0 →
      SearchInvAux m start goals (fun p => p = top) heap cf gs →
      SearchInvAux m start goals (fun p => p = top)
        (ns.foldl (expand top (gtop + 1) goals) (heap, cf, gs)).1
        (ns.foldl (expand top (gtop + 1) goals) (heap, cf, gs)).2.1
        (ns.foldl (expand top (gtop + 1) goals) (heap, cf, gs)).2.2 ∧
      (∀ n ∈ ns,
        (ns.foldl (expand top (gtop + 1) goals) (heap, cf, gs)).2.2 n ≠ none) ∧
      (∀ q, gs q ≠ none →
        (ns.foldl (expand top (gtop + 1) goals) (heap, cf, gs)).2.2 q ≠ none) ∧
      (ns.foldl (expand top (gtop + 1) goals) (heap, cf, gs)).1.length +
          ∑ p ∈ insert start boxFinset,
            slack (ns.foldl (expand top (gtop + 1) goals) (heap, cf, gs)).2.2 p ≤
        heap.length + ∑ p ∈ insert start boxFinset, slack gs p := by
  intro ns
  induction ns with
  | nil =>
    intro heap cf gs _ _ hinv
    exact ⟨hinv, by simp, fun q h => h, le_refl _⟩
  | cons n ns ih =>
    intro heap cf gs hed htop hinv
    rw [List.foldl_cons]
    obtain ⟨hinv1, hn1, hdec1, hphi1, htop1⟩ :=
      expand_spec m start top n goals gtop cs0 heap cf gs
        (hed n (List.mem_cons_self n ns)) htop hinv
    obtain ⟨hinv2, hns2, hmono2, hphi2⟩ :=
      ih (expand top (gtop + 1) goals (heap, cf, gs) n).1
        (expand top (gtop + 1) goals (heap, cf, gs) n).2.1
        (expand top (gtop + 1) goals (heap, cf, gs) n).2.2
        (fun x hx => hed x (List.mem_cons_of_mem _ hx)) htop1 hinv1
    refine ⟨hinv2, ?_, ?_, le_trans hphi2 hphi1⟩
    · intro x hx
      rcases List.mem_cons.mp hx with rfl | hx
      · exact hmono2 x hn1
      · exact hns2 x hx
    · intro q hq
      refine hmono2 q ?_
      cases hgq : gs q with
      | none => exact absurd hgq hq
      | some v =>
        obtain ⟨v', _, h⟩ := hdec1 q v hgq
        rw [h]
        exact fun hh => Option.noConfusion hh

/-- The A* loop, started in an invariant state with fuel exceeding the
termination potential, always returns: the empty path exactly when no goal
is reachable from `start`, and otherwise a chain of pathfinder moves from
`start` to a goal. -/
theorem astar_loop_spec (m : Maze) (start : GridPos) (goals : List GridPos) :
    ∀ (fuel : ℕ) (heap : List Entry) (cf : GridPos → Option GridPos)
      (gs : GridPos → Option ℕ),
      SearchInv m start goals heap cf gs →
      phi start heap gs < fuel →
      ∃ res, astar_loop m goals fuel heap cf gs = some res ∧
        (res = [] → ∀ p ∈ goals, ¬ Reaches m start p) ∧
        (res ≠ [] → res.head? = some start ∧
          (∃ gl, res.getLast? = some gl ∧ gl ∈ goals) ∧ res.Chain' (Edge m)) := by
  intro fuel
  induction fuel with
  | zero => intro heap cf gs _ hphi; omega
  | succ fuel ih =>
    intro heap cf gs hinv hphi
    cases heap with
    | nil =>
      refine ⟨[], rfl, ?_, fun h => absurd rfl h⟩
      intro _ p hpg hreach
      have hscored : ∀ q, Reaches m start q → gs q ≠ none := by
        intro q hq
        unfold Reaches at hq
        induction hq with
        | refl => rw [hinv.gs_start]; exact fun h => Option.noConfusion h
        | tail hab hbc ihab =>
          rcases hinv.closure _ ihab with hex | ⟨f, g, hfg⟩ | hnb
          · exact hex.elim
          · cases hfg
          · exact hnb _ hbc
      obtain ⟨f, g, hfg⟩ := hinv.goal_entry p hpg (hscored p hreach)
      cases hfg
    | cons e rest =>
      have htopmem : heapMin e rest ∈ e :: rest := heapMin_mem e rest
      obtain ⟨cs0, hcs0⟩ :=
        hinv.heap_path (heapMin e rest).1 (heapMin e rest).2.1 (heapMin e rest).2.2 htopmem
      by_cases hgoal : (heapMin e rest).2.2 ∈ goals
      · obtain ⟨vt, hvt, hvts⟩ := hcs0.endpoint_score
        have hvb : vt ≤ 868 := hinv.gs_bound _ _ hvts
        obtain ⟨pth, heq, hne, hhead, hlast, hchain⟩ :=
          reconstruct_spec m start cf gs hinv.cf_edge hinv.cf_lt hinv.scored_parent
            vt (heapMin e rest).2.2 [] 1000000 hvts (by omega)
        rw [List.append_nil] at heq
        refine ⟨pth, ?_, fun h => absurd h hne, fun _ => ⟨hhead,
          ⟨(heapMin e rest).2.2, hlast, hgoal⟩, hchain⟩⟩
        rw [astar_loop]
        dsimp only
        rw [if_pos hgoal]
        exact heq
      · have hmid : SearchInvAux m start goals (fun p => p = (heapMin e rest).2.2)
            (eraseEntry (e :: rest) (heapMin e rest)) cf gs := by
          refine ⟨hinv.gs_start, hinv.gs_bound, hinv.cf_edge, hinv.cf_lt,
            hinv.scored_parent, ?_, ?_, ?_⟩
          · intro f g p hp
            exact hinv.heap_path f g p (eraseEntry_subset _ hp)
          · intro p hpg hps
            obtain ⟨f, g, hfg⟩ := hinv.goal_entry p hpg hps
            refine ⟨f, g, mem_eraseEntry_of_ne hfg ?_⟩
            intro hfgtop
            have hpt : p = (heapMin e rest).2.2 := congrArg (fun x => x.2.2) hfgtop
            exact hgoal (hpt ▸ hpg)
          · intro p hps
            rcases hinv.closure p hps with hex | ⟨f, g, hfg⟩ | hnb
            · exact hex.elim
            · by_cases hp : p = (heapMin e rest).2.2
              · exact Or.inl hp
              · refine Or.inr (Or.inl ⟨f, g, mem_eraseEntry_of_ne hfg ?_⟩)
                intro hfgtop
                exact hp (congrArg (fun x => x.2.2) hfgtop)
            · exact Or.inr (Or.inr hnb)
        obtain ⟨hinv', hns', hmono', hphi'⟩ :=
          expand_foldl_spec m start (heapMin e rest).2.2 goals (heapMin e rest).2.1 cs0
            (neighbours m (heapMin e rest).2.2) (eraseEntry (e :: rest) (heapMin e rest))
            cf gs (fun n hn => hn) hcs0 hmid
        have hinv'' : SearchInv m start goals
            ((neighbours m (heapMin e rest).2.2).foldl
              (expand (heapMin e rest).2.2 ((heapMin e rest).2.1 + 1) goals)
              (eraseEntry (e :: rest) (heapMin e rest), cf, gs)).1
            ((neighbours m (heapMin e rest).2.2).foldl
              (expand (heapMin e rest).2.2 ((heapMin e rest).2.1 + 1) goals)
              (eraseEntry (e :: rest) (heapMin e rest), cf, gs)).2.1
            ((neighbours m (heapMin e rest).2.2).foldl
              (expand (heapMin e rest).2.2 ((heapMin e rest).2.1 + 1) goals)
              (eraseEntry (e :: rest) (heapMin e rest), cf, gs)).2.2 := by
          refine ⟨hinv'.gs_start, hinv'.gs_bound, hinv'.cf_edge, hinv'.cf_lt,
            hinv'.scored_parent, hinv'.heap_path, hinv'.goal_entry, ?_⟩
          intro p hps
          rcases hinv'.closure p hps with hex | hrest2
          · exact Or.inr (Or.inr (fun q hq => hns' q (hex ▸ hq)))
          · exact Or.inr hrest2
        have hlen1 : (eraseEntry (e :: rest) (heapMin e rest)).length + 1 =
            (e :: rest).length := eraseEntry_length htopmem
        have hphinew : phi start
            ((neighbours m (heapMin e rest).2.2).foldl
              (expand (heapMin e rest).2.2 ((heapMin e rest).2.1 + 1) goals)
              (eraseEntry (e :: rest) (heapMin e rest), cf, gs)).1
            ((neighbours m (heapMin e rest).2.2).foldl
              (expand (heapMin e rest).2.2 ((heapMin e rest).2.1 + 1) goals)
              (eraseEntry (e :: rest) (heapMin e rest), cf, gs)).2.2 < fuel := by
          unfold phi at hphi ⊢
          omega
        obtain ⟨res, hres, himp1, himp2⟩ := ih _ _ _ hinv'' hphinew
        refine ⟨res, ?_, himp1, himp2⟩
        rw [astar_loop]
        dsimp only
        rw [if_neg hgoal]
        exact hres

/-- The state `astar_path` hands to the loop satisfies the invariant. -/
theorem astar_initial_inv (m : Maze) (start : GridPos) (goals : List GridPos)
    (hsg : start ∉ goals) :
    SearchInv m start goals [(heuristic start goals, 0, start)]
      (fun _ => none) (fun q => if q = start then some 0 else none) := by
  refine ⟨by simp, ?_, ?_, ?_, ?_, ?_, ?_, ?_⟩
  · intro q v hq
    by_cases hqs : q = start
    · rw [if_pos hqs] at hq
      have : (0 : ℕ) = v := Option.some_inj.mp hq
      omega
    · rw [if_neg hqs] at hq
      exact Option.noConfusion hq
  · intro n c h; exact Option.noConfusion h
  · intro n c h; exact Option.noConfusion h
  · intro n hns hn
    rw [if_neg hns] at hn
    exact absurd rfl hn
  · intro f g p hp
    obtain ⟨hf, hg, hps⟩ : f = heuristic start goals ∧ g = 0 ∧ p = start := by
      simpa [Prod.ext_iff] using hp
    rw [hg, hps]
    exact ⟨[start], RPath.base (by simp)⟩
  · intro p hpg hps
    by_cases hp : p = start
    · exact absurd (hp ▸ hpg) hsg
    · rw [if_neg hp] at hps
      exact absurd rfl hps
  · intro p hps
    by_cases hp : p = start
    · refine Or.inr (Or.inl ⟨heuristic start goals, 0, ?_⟩)
      rw [hp]
      exact List.mem_cons_self _ _
    · rw [if_neg hp] at hps
      exact absurd rfl hps

/-- The fuel `astar_path` supplies strictly exceeds the initial potential. -/
theorem phi_lt_fuel (start : GridPos) (e : Entry) (gs : GridPos → Option ℕ) :
    phi start [e] gs < 1000000 := by
  unfold phi
  have hcard : (insert start boxFinset).card ≤ 869 := by
    have h := Finset.card_insert_le start boxFinset
    rw [boxFinset_card] at h
    omega
  have hsum : ∑ p ∈ insert start boxFinset, slack gs p ≤ 869 * 869 := by
    calc ∑ p ∈ insert start boxFinset, slack gs p
        ≤ ∑ _p ∈ insert start boxFinset, 869 :=
          Finset.sum_le_sum (fun p _ => min_le_right _ _)
      _ = (insert start boxFinset).card * 869 := by
          rw [Finset.sum_const, smul_eq_mul]
      _ ≤ 869 * 869 := Nat.mul_le_mul_right _ hcard
  simp only [List.length_singleton]
  omega

/-- A chain of pathfinder moves from `a` to `b` shows `b` reachable. -/
theorem chain_head_reaches (m : Maze) :
    ∀ (res : List GridPos) (a b : GridPos), res.Chain' (Edge m) →
      res.head? = some a → res.getLast? = some b → Reaches m a b := by
  intro res
  induction res with
  | nil => intro a b _ h; exact Option.noConfusion h
  | cons x t ih =>
    intro a b hchain hhead hlast
    have hxa : x = a := by simpa using hhead
    cases t with
    | nil =>
      have hxb : x = b := by simpa using hlast
      rw [← hxa, ← hxb]
      exact Relation.ReflTransGen.refl
    | cons y t2 =>
      rw [List.chain'_cons] at hchain
      rw [List.getLast?_cons_cons] at hlast
      rw [← hxa]
      exact Relation.ReflTransGen.head hchain.1 (ih y b hchain.2 rfl hlast)

/-- Along a chain of pathfinder moves starting at an in-grid non-wall
cell, consecutive cells are wrap-aware 4-adjacent and every cell is
traversable. -/
theorem chain_wrap_and_walls (m : Maze) :
    ∀ (res : List GridPos) (a : GridPos), res.Chain' (Edge m) →
      res.head? = some a → InBox a → cellAt m a ≠ 'X' →
      res.Chain' wrapAdjacent ∧ ∀ c ∈ res, cellAt m c ≠ 'X' := by
  intro res
  induction res with
  | nil => intro a _ _ _ _; exact ⟨List.chain'_nil, by simp⟩
  | cons x t ih =>
    intro a hchain hhead hbox hwall
    have hxa : x = a := by simpa using hhead
    cases t with
    | nil =>
      refine ⟨List.chain'_singleton _, ?_⟩
      intro c hc
      rw [List.mem_singleton.mp hc, hxa]
      exact hwall
    | cons y t2 =>
      rw [List.chain'_cons] at hchain
      obtain ⟨hwrap2, hwalls2⟩ :=
        ih y hchain.2 rfl (edge_dest hchain.1).1 (edge_dest hchain.1).2
      refine ⟨List.chain'_cons.mpr ⟨edge_wrapAdjacent (hxa.symm ▸ hbox) hchain.1,
        hwrap2⟩, ?_⟩
      intro c hc
      rcases List.mem_cons.mp hc with rfl | hc
      · exact hxa.symm ▸ hwall
      · exact hwalls2 c hc

/-- C2: on the (well-formed) game grid, for every in-grid non-wall start
cell and every goal set containing a reachable goal, `astar_path` returns a
non-empty path that begins with the start cell, ends with a member of the
goal set, steps only between wrap-aware 4-adjacent cells (left from column
0 reaches the last column and vice versa; vertical moves never wrap), and
visits only traversable cells. -/
theorem astar_path_valid (m : Maze) (start : GridPos) (goals : List GridPos)
    (_hwf : WellFormed m) (hbox : InBox start) (hwall : cellAt m start ≠ 'X')
    (hreach : ∃ p ∈ goals, Reaches m start p) :
    ∃ res, astar_path m start goals = some res ∧ res ≠ [] ∧
      res.head? = some start ∧
      (∃ gl, res.getLast? = some gl ∧ gl ∈ goals) ∧
      res.Chain' wrapAdjacent ∧
      ∀ c ∈ res, cellAt m c ≠ 'X' := by
  by_cases hsg : start ∈ goals
  · refine ⟨[start], ?_, by simp, rfl, ⟨start, rfl, hsg⟩, List.chain'_singleton _,
      by simpa using hwall⟩
    rw [astar_path, if_pos hsg]
  · obtain ⟨res, hres, himp1, himp2⟩ := astar_loop_spec m start goals 1000000 _ _ _
      (astar_initial_inv m start goals hsg) (phi_lt_fuel start _ _)
    have hne : res ≠ [] := by
      intro h
      obtain ⟨p, hpg, hpre⟩ := hreach
      exact himp1 h p hpg hpre
    obtain ⟨hhead, ⟨gl, hlast, hgl⟩, hchain⟩ := himp2 hne
    obtain ⟨hwrap, hwalls⟩ := chain_wrap_and_walls m res start hchain hhead hbox hwall
    refine ⟨res, ?_, hne, hhead, ⟨gl, hlast, hgl⟩, hwrap, hwalls⟩
    rw [astar_path, if_neg hsg]
    exact hres

/-- Witness for C2: on the corridor grid, the search from (1, 5) to the
reachable goal (2, 5) returns a valid path. -/
theorem astar_path_valid_witness :
    ∃ res, astar_path corridorMaze (1, 5) [(2, 5)] = some res ∧ res ≠ [] ∧
      res.head? = some ((1 : ℤ), (5 : ℤ)) ∧
      (∃ gl, res.getLast? = some gl ∧ gl ∈ [((2 : ℤ), (5 : ℤ))]) ∧
      res.Chain' wrapAdjacent ∧
      ∀ c ∈ res, cellAt corridorMaze c ≠ 'X' :=
  astar_path_valid corridorMaze (1, 5) [(2, 5)] (by decide) (by decide) (by decide)
    ⟨(2, 5), List.mem_cons_self _ _,
      Relation.ReflTransGen.single (by decide : Edge corridorMaze (1, 5) (2, 5))⟩

/-- C7: for every start cell and goal set from which no goal is reachable —
including the empty goal set — `astar_path` terminates by frontier
exhaustion and returns the empty sequence (`some []`: the fuel, which
stands in for the loop's termination measure, is never exhausted and no
error is raised). -/
theorem astar_path_unreachable (m : Maze) (start : GridPos) (goals : List GridPos)
    (_hwf : WellFormed m) (hunreach : ∀ p ∈ goals, ¬ Reaches m start p) :
    astar_path m start goals = some [] := by
  by_cases hsg : start ∈ goals
  · exact absurd Relation.ReflTransGen.refl (hunreach start hsg)
  · obtain ⟨res, hres, himp1, himp2⟩ := astar_loop_spec m start goals 1000000 _ _ _
      (astar_initial_inv m start goals hsg) (phi_lt_fuel start _ _)
    have hresnil : res = [] := by
      by_contra hne
      obtain ⟨hhead, ⟨gl, hlast, hgl⟩, hchain⟩ := himp2 hne
      exact hunreach gl hgl (chain_head_reaches m res start gl hchain hhead hlast)
    rw [astar_path, if_neg hsg, hres, hresnil]

/-- Witness for C7: the empty goal set on the corridor grid yields the
empty path, not an error. -/
theorem astar_path_unreachable_witness :
    astar_path corridorMaze (1, 5) [] = some [] :=
  astar_path_unreachable corridorMaze (1, 5) [] (by decide) (by simp)

end PacSpec
